import Mathlib

/-!
Verification of the JGA-Jan availability coordination app.

The development shallowly embeds the coordination core of the repository:
the conflict classifier and the toggle / drag-range engine of
`src/src/App.tsx`, the availability persistence route and aggregate reads of
`src/api/index.ts` / `src/server.ts`, and the login and administrative
deletion routes of `src/server.ts`.  Stores (SQL tables) are embedded as
lists of rows; each Express handler becomes a pure function from the store
state and the request to the updated store state and the response.
-/

/-- A calendar date.  In the source every date travels as a zero-padded
`yyyy-MM-dd` string (produced by `format(d, 'yyyy-MM-dd')`); a `Date` value
stands for that string.  The lexicographic order on `(year, month, day)`
coincides with the JavaScript string order `<` on the zero-padded
representation, which is how `App.tsx` compares date strings. -/
structure Date where
  year : Nat
  month : Nat
  day : Nat
deriving DecidableEq, Repr

/-- The client-side `Person` interface of `App.tsx` (`id`, `name`, `color`;
the passcode never reaches the client type). -/
structure Person where
  id : String
  name : String
  color : String
deriving DecidableEq, Repr

/-- The `conflictMode` field of `ViewConfig` in `App.tsx`:
`'none' | 'any' | 'all'`. -/
inductive ConflictMode where
  | cnone
  | cany
  | call
deriving DecidableEq, Repr

/-- Embedding of the record access `allUnavailability[p.id] || []` in
`App.tsx`: look a participant id up in the aggregate availability snapshot,
defaulting to the empty list when the key is absent. -/
def lookupDates (m : List (String × List Date)) (k : String) : List Date :=
  match m.find? (fun e => e.1 == k) with
  | some e => e.2
  | none => []

/-- Embedding of `App.tsx` (admin month view):
`people.filter(p => (allUnavailability[p.id] || []).includes(dStr))`. -/
def unavailablePeopleForDay (people : List Person)
    (allUnavailability : List (String × List Date)) (dStr : Date) : List Person :=
  people.filter (fun p => (lookupDates allUnavailability p.id).contains dStr)

/-- Embedding of the `isConflict` computation in the admin month view of
`App.tsx`:
`conflictMode === 'any' ? unavailablePeopleForDay.length > 0
 : conflictMode === 'all' ? unavailablePeopleForDay.length === people.length && people.length > 0
 : false`. -/
def isConflict (conflictMode : ConflictMode) (people : List Person)
    (allUnavailability : List (String × List Date)) (dStr : Date) : Bool :=
  match conflictMode with
  | .cany => (unavailablePeopleForDay people allUnavailability dStr).length > 0
  | .call => (unavailablePeopleForDay people allUnavailability dStr).length == people.length
      && people.length > 0
  | .cnone => false

/-- C1: in mode `none` no date is flagged; in mode `any` a date is flagged
iff at least one identity is unavailable on it; in mode `all` a date is
flagged iff the identity set is non-empty and every known identity is
unavailable on it. -/
theorem c1_conflict_classifier_modes (people : List Person)
    (allUnavailability : List (String × List Date)) (d : Date) :
    isConflict ConflictMode.cnone people allUnavailability d = false ∧
    (isConflict ConflictMode.cany people allUnavailability d = true ↔
      ∃ p ∈ people, d ∈ lookupDates allUnavailability p.id) ∧
    (isConflict ConflictMode.call people allUnavailability d = true ↔
      people ≠ [] ∧ ∀ p ∈ people, d ∈ lookupDates allUnavailability p.id) := by
  refine ⟨rfl, ?_, ?_⟩
  · simp [isConflict, unavailablePeopleForDay, List.length_pos,
      List.filter_eq_nil_iff, List.elem_iff]
  · simp only [isConflict, unavailablePeopleForDay, Bool.and_eq_true,
      beq_iff_eq, decide_eq_true_eq, List.filter_length_eq_length,
      List.length_pos, List.elem_iff]
    constructor
    · rintro ⟨hall, hne⟩
      exact ⟨hne, hall⟩
    · rintro ⟨hne, hall⟩
      exact ⟨hall, hne⟩

/-- Embedding of `POST /api/availability/:personId` (`src/api/index.ts` and
`src/server.ts`).  The `availability` table is a list of
`(person_id, date)` rows; its primary key `(person_id, date)` is expressed
by a `Nodup` hypothesis where needed.
`available = true` runs `DELETE FROM availability WHERE person_id = $1 AND
date = $2`; `available = false` runs `INSERT ... ON CONFLICT DO NOTHING`.
Both branches answer `{ success: true }` (the second component). -/
def postAvailability (store : List (String × Date)) (personId : String)
    (date : Date) (available : Bool) : List (String × Date) × Bool :=
  if available then
    (store.filter (fun r => !(r.1 == personId && r.2 == date)), true)
  else
    (if store.contains (personId, date) then store else store ++ [(personId, date)], true)

/-- In a duplicate-free list every member is counted exactly once (used to
express the primary-key uniqueness of store rows). -/
theorem count_eq_one_of_nodup_mem {α : Type} [BEq α] [LawfulBEq α]
    {l : List α} {a : α} (hnd : l.Nodup) (hm : a ∈ l) : l.count a = 1 := by
  induction l with
  | nil => simp at hm
  | cons b t ih =>
    rcases List.nodup_cons.mp hnd with ⟨hb, ht⟩
    rcases List.mem_cons.mp hm with h | h
    · subst h
      have h0 : t.count a = 0 := List.count_eq_zero.mpr hb
      rw [List.count_cons_self, h0]
    · have hne : a ≠ b := fun e => hb (e ▸ h)
      rw [List.count_cons_of_ne hne, ih ht h]

/-- C2: persisting `available = false` for an already-present pair leaves
exactly one mark for that pair and reports success; persisting
`available = true` for an absent pair leaves zero marks and reports
success — both idempotent no-ops without a user-visible error. -/
theorem c2_persistence_idempotent (store : List (String × Date))
    (personId : String) (date : Date) :
    (store.Nodup → (personId, date) ∈ store →
      (postAvailability store personId date false).1.count (personId, date) = 1 ∧
      (postAvailability store personId date false).2 = true) ∧
    ((personId, date) ∉ store →
      (postAvailability store personId date true).1.count (personId, date) = 0 ∧
      (postAvailability store personId date true).2 = true) := by
  constructor
  · intro hnd hmem
    have hc : store.contains (personId, date) = true := List.elem_iff.mpr hmem
    refine ⟨?_, rfl⟩
    show (if store.contains (personId, date) then store
        else store ++ [(personId, date)]).count (personId, date) = 1
    rw [if_pos hc]
    exact count_eq_one_of_nodup_mem hnd hmem
  · intro hmem
    refine ⟨?_, rfl⟩
    show (store.filter (fun r => !(r.1 == personId && r.2 == date))).count
      (personId, date) = 0
    exact List.count_eq_zero.mpr (fun hin => hmem (List.mem_of_mem_filter hin))

/-- Witness for C2 at a concrete store. -/
theorem c2_persistence_idempotent_witness :
    (postAvailability [("1", ⟨2026, 5, 1⟩)] "1" ⟨2026, 5, 1⟩ false).1.count
      ("1", ⟨2026, 5, 1⟩) = 1 ∧
    (postAvailability [("2", ⟨2026, 5, 2⟩)] "1" ⟨2026, 5, 1⟩ true).1.count
      ("1", ⟨2026, 5, 1⟩) = 0 :=
  ⟨((c2_persistence_idempotent [("1", ⟨2026, 5, 1⟩)] "1" ⟨2026, 5, 1⟩).1
      (by decide) (by decide)).1,
   ((c2_persistence_idempotent [("2", ⟨2026, 5, 2⟩)] "1" ⟨2026, 5, 1⟩).2
      (by decide)).1⟩

/-- One step of the aggregation loop in `GET /api/availability`:
`if (!map[row.person_id]) map[row.person_id] = [];
 map[row.person_id].push(row.date);`. -/
def addRow (m : List (String × List Date)) (personId : String) (date : Date) :
    List (String × List Date) :=
  if m.any (fun e => e.1 == personId) then
    m.map (fun e => if e.1 == personId then (e.1, e.2 ++ [date]) else e)
  else
    m ++ [(personId, [date])]

/-- Embedding of `GET /api/availability` (`src/api/index.ts` and
`src/server.ts`): fold the `availability` rows into a
`Record<string, string[]>` keyed by `person_id`. -/
def availabilityMap (rows : List (String × Date)) : List (String × List Date) :=
  rows.foldl (fun m r => addRow m r.1 r.2) []

theorem mem_keys_addRow (m : List (String × List Date)) (q : String) (d : Date)
    (pid : String) :
    pid ∈ (addRow m q d).map Prod.fst ↔ pid ∈ m.map Prod.fst ∨ pid = q := by
  unfold addRow
  by_cases h : m.any (fun e => e.1 == q) = true
  · rw [if_pos h, List.map_map]
    have hk : (Prod.fst ∘ fun e : String × List Date =>
        if e.1 == q then (e.1, e.2 ++ [d]) else e) = Prod.fst := by
      funext e
      simp only [Function.comp]
      split <;> rfl
    rw [hk]
    constructor
    · exact Or.inl
    · rintro (hm | rfl)
      · exact hm
      · rcases List.any_eq_true.mp h with ⟨e, he, hbe⟩
        exact List.mem_map.mpr ⟨e, he, beq_iff_eq.mp hbe⟩
  · rw [if_neg h]
    simp

theorem nonnil_values_addRow (m : List (String × List Date)) (q : String)
    (d : Date) (hm : ∀ p l, (p, l) ∈ m → l ≠ []) :
    ∀ p l, (p, l) ∈ addRow m q d → l ≠ [] := by
  intro p l hin
  unfold addRow at hin
  by_cases h : m.any (fun e => e.1 == q) = true
  · rw [if_pos h] at hin
    rcases List.mem_map.mp hin with ⟨e, he, heq⟩
    split at heq
    · cases heq
      simp
    · cases heq
      exact hm p l he
  · rw [if_neg h] at hin
    rcases List.mem_append.mp hin with hin | hin
    · exact hm p l hin
    · simp at hin
      rw [hin.2]
      simp

theorem mem_keys_foldl_addRow (rows : List (String × Date))
    (m : List (String × List Date)) (pid : String) :
    pid ∈ (rows.foldl (fun m r => addRow m r.1 r.2) m).map Prod.fst ↔
      pid ∈ m.map Prod.fst ∨ ∃ d, (pid, d) ∈ rows := by
  induction rows generalizing m with
  | nil => simp
  | cons r rows ih =>
    rw [List.foldl_cons, ih, mem_keys_addRow]
    constructor
    · rintro ((hm | rfl) | ⟨d, hd⟩)
      · exact Or.inl hm
      · exact Or.inr ⟨r.2, List.mem_cons_self _ _⟩
      · exact Or.inr ⟨d, List.mem_cons_of_mem _ hd⟩
    · rintro (hm | ⟨d, hd⟩)
      · exact Or.inl (Or.inl hm)
      · rcases List.mem_cons.mp hd with he | ht
        · exact Or.inl (Or.inr (congrArg Prod.fst he))
        · exact Or.inr ⟨d, ht⟩

theorem nonnil_values_foldl_addRow (rows : List (String × Date))
    (m : List (String × List Date)) (hm : ∀ p l, (p, l) ∈ m → l ≠ []) :
    ∀ p l, (p, l) ∈ rows.foldl (fun m r => addRow m r.1 r.2) m → l ≠ [] := by
  induction rows generalizing m with
  | nil => exact hm
  | cons r rows ih =>
    rw [List.foldl_cons]
    exact ih _ (nonnil_values_addRow m r.1 r.2 hm)

/-- C10: the aggregate availability read keys a participant iff that
participant has at least one mark, and no key is ever mapped to an empty
list (a participant with zero marks is absent, not mapped to `[]`). -/
theorem c10_availability_map_keys (rows : List (String × Date)) (pid : String) :
    (pid ∈ (availabilityMap rows).map Prod.fst ↔ ∃ d, (pid, d) ∈ rows) ∧
    (∀ l, (pid, l) ∈ availabilityMap rows → l ≠ []) := by
  constructor
  · rw [availabilityMap, mem_keys_foldl_addRow]
    simp
  · intro l hin
    exact nonnil_values_foldl_addRow rows [] (by simp) pid l hin

/-- Witness for C10 at a concrete row list. -/
theorem c10_availability_map_keys_witness :
    ("1" ∈ (availabilityMap [("1", ⟨2026, 5, 1⟩)]).map Prod.fst ↔
      ∃ d, (("1", d) : String × Date) ∈ [("1", ⟨2026, 5, 1⟩)]) ∧
    [(⟨2026, 5, 1⟩ : Date)] ≠ [] :=
  ⟨(c10_availability_map_keys [("1", ⟨2026, 5, 1⟩)] "1").1,
   (c10_availability_map_keys [("1", ⟨2026, 5, 1⟩)] "1").2 [⟨2026, 5, 1⟩] (by decide)⟩

/-- Filtering away an element that does not occur in the list leaves the
list unchanged. -/
theorem filter_ne_of_not_mem {α : Type} [BEq α] [LawfulBEq α] {l : List α}
    {a : α} (h : a ∉ l) : l.filter (fun x => x != a) = l :=
  List.filter_eq_self.mpr (fun x hx => by
    have hne : x ≠ a := fun e => h (e ▸ hx)
    simp [hne])

/-- An element of the list never survives filtering on `!= a` at itself. -/
theorem not_mem_filter_ne_self {α : Type} [BEq α] [LawfulBEq α]
    (l : List α) (a : α) : a ∉ l.filter (fun x => x != a) := by
  intro hin
  have h := List.of_mem_filter hin
  simp at h

/-- Removing all copies of a member of a duplicate-free list and appending
one copy back is a permutation of the original list. -/
theorem perm_filter_ne_append {α : Type} [BEq α] [LawfulBEq α] {l : List α}
    {a : α} (hnd : l.Nodup) (hm : a ∈ l) :
    (l.filter (fun x => x != a) ++ [a]).Perm l := by
  induction l with
  | nil => cases hm
  | cons b t ih =>
    rcases List.nodup_cons.mp hnd with ⟨hb, ht⟩
    rcases List.mem_cons.mp hm with heq | hm'
    · subst heq
      have hf : (a :: t).filter (fun x => x != a) = t := by
        rw [List.filter_cons]
        simp [filter_ne_of_not_mem hb]
      rw [hf]
      exact List.perm_append_singleton _ _
    · have hne : (b != a) = true := by
        have hba : b ≠ a := fun e => hb (e ▸ hm')
        simp [hba]
      have hf : (b :: t).filter (fun x => x != a) = b :: t.filter (fun x => x != a) := by
        rw [List.filter_cons, if_pos hne]
      rw [hf, List.cons_append]
      exact (ih ht hm').cons b

/-- The client-local state read and written by `toggleDate` in `App.tsx`:
the `lastToggle` ref (`{ date: string, time: number } | null`, time in ms)
and the `personalUnavailability` list. -/
structure ClientState where
  lastToggle : Option (Date × Nat)
  personalUnavailability : List Date
deriving DecidableEq, Repr

/-- The body of `toggleDate` in `App.tsx` past the debounce guard: record
the call in `lastToggle`, read
`isUnavailable = personalUnavailability.includes(dateStr)`, flip the local
membership optimistically (`prev.filter(d => d !== dateStr)` when present,
`[...prev, dateStr]` when absent), and emit the persistence request body
`{ date: dateStr, available: isUnavailable }`. -/
def toggleDateBody (st : ClientState) (dateStr : Date) (now : Nat) :
    ClientState × Option (Date × Bool) :=
  let isUnavailable := st.personalUnavailability.contains dateStr
  let newList :=
    if st.personalUnavailability.contains dateStr then
      st.personalUnavailability.filter (fun d => d != dateStr)
    else
      st.personalUnavailability ++ [dateStr]
  (⟨some (dateStr, now), newList⟩, some (dateStr, isUnavailable))

/-- Embedding of `toggleDate` in `App.tsx`, called in personal mode with a
logged-in user.  The debounce guard
`if (lastToggle.current && lastToggle.current.date === dateStr &&
(Date.now() - lastToggle.current.time) < 300) return;` drops the call
without queueing it.  `Date.now()` is the `now` argument (ms); truncated
`Nat` subtraction agrees with JS number subtraction in the guard because a
negative difference and a truncated-to-zero difference are both `< 300`.
Returns the new client state and the emitted persistence request (`none`
when the call is dropped). -/
def toggleDate (st : ClientState) (dateStr : Date) (now : Nat) :
    ClientState × Option (Date × Bool) :=
  match st.lastToggle with
  | some last =>
    if last.1 == dateStr && now - last.2 < 300 then (st, none)
    else toggleDateBody st dateStr now
  | none => toggleDateBody st dateStr now

/-- C9: starting from a fresh debounce ref, a second toggle call for the
same date less than 300 ms after the first is dropped (state unchanged, no
request), leaving exactly one net flip of the date and the single request of
the first call; a second call for a different date, or one at least 300 ms
later, is processed normally. -/
theorem c9_toggle_debounce_drops_second (l0 : List Date) (d d' : Date)
    (t1 t2 : Nat) :
    (t1 ≤ t2 → t2 - t1 < 300 →
      toggleDate (toggleDate ⟨none, l0⟩ d t1).1 d t2 =
        ((toggleDate ⟨none, l0⟩ d t1).1, none) ∧
      (d ∈ (toggleDate (toggleDate ⟨none, l0⟩ d t1).1 d t2).1.personalUnavailability
        ↔ d ∉ l0) ∧
      (toggleDate ⟨none, l0⟩ d t1).2 = some (d, l0.contains d)) ∧
    (d' ≠ d → (toggleDate (toggleDate ⟨none, l0⟩ d t1).1 d' t2).2 ≠ none) ∧
    (300 ≤ t2 - t1 →
      (toggleDate (toggleDate ⟨none, l0⟩ d t1).1 d t2).2 ≠ none) := by
  refine ⟨fun hle hlt => ?_, fun hne => ?_, fun hge => ?_⟩
  · have hdec : decide (t2 - t1 < 300) = true := decide_eq_true hlt
    refine ⟨?_, ?_, rfl⟩
    · simp [toggleDate, toggleDateBody, hdec]
    · simp only [toggleDate, toggleDateBody]
      simp only [hdec, beq_self_eq_true, Bool.and_self, if_true]
      by_cases hd : d ∈ l0
      · rw [if_pos (List.elem_iff.mpr hd)]
        simp [not_mem_filter_ne_self l0 d, hd]
      · rw [if_neg (fun hc => hd (List.elem_iff.mp hc))]
        simp [hd]
  · have hgf : (d == d') = false := beq_false_of_ne (fun e => hne e.symm)
    simp [toggleDate, toggleDateBody, hgf]
  · have hdec : decide (t2 - t1 < 300) = false := decide_eq_false (by omega)
    simp [toggleDate, toggleDateBody, hdec]

/-- Witness for C9 at concrete inputs (second call 50 ms after the first for
the drop case, 300 ms after for the processed case). -/
theorem c9_toggle_debounce_drops_second_witness :
    (toggleDate (toggleDate ⟨none, ([] : List Date)⟩ ⟨2026, 6, 1⟩ 0).1
        ⟨2026, 6, 1⟩ 50 =
      ((toggleDate ⟨none, ([] : List Date)⟩ ⟨2026, 6, 1⟩ 0).1, none)) ∧
    ((toggleDate (toggleDate ⟨none, ([] : List Date)⟩ ⟨2026, 6, 1⟩ 0).1
        ⟨2026, 6, 2⟩ 50).2 ≠ none) ∧
    ((toggleDate (toggleDate ⟨none, ([] : List Date)⟩ ⟨2026, 6, 1⟩ 0).1
        ⟨2026, 6, 1⟩ 300).2 ≠ none) :=
  ⟨((c9_toggle_debounce_drops_second [] ⟨2026, 6, 1⟩ ⟨2026, 6, 2⟩ 0 50).1
      (by decide) (by decide)).1,
   (c9_toggle_debounce_drops_second [] ⟨2026, 6, 1⟩ ⟨2026, 6, 2⟩ 0 50).2.1
      (by decide),
   (c9_toggle_debounce_drops_second [] ⟨2026, 6, 1⟩ ⟨2026, 6, 2⟩ 0 300).2.2
      (by decide)⟩

/-- A list does not contain an element that is not a member of it. -/
theorem contains_eq_false_of_not_mem {α : Type} [BEq α] [LawfulBEq α]
    {l : List α} {a : α} (h : a ∉ l) : l.contains a = false :=
  Bool.eq_false_iff.mpr (fun hc => h (List.elem_iff.mp hc))

/-- The client-side fetch issued by `toggleDate` in `App.tsx`:
`fetch('/api/availability/' + currentUser.id, { method: 'POST', ... })` with
body `{ date, available }`, delivered to the `POST /api/availability`
route; a dropped toggle sends nothing. -/
def applyRequest (store : List (String × Date)) (personId : String)
    (req : Option (Date × Bool)) : List (String × Date) :=
  match req with
  | some r => (postAvailability store personId r.1 r.2).1
  | none => store

/-- C3: toggling the same date twice in succession (the second call past the
300 ms debounce window, no other operations in between) returns both the
client-local unavailability set and the persisted availability store to
their original contents. -/
theorem c3_toggle_twice_round_trip (personId : String) (l0 : List Date)
    (store : List (String × Date)) (d : Date) (t1 t2 : Nat)
    (hl : l0.Nodup) (hs : store.Nodup)
    (hcons : d ∈ l0 ↔ (personId, d) ∈ store) (hgap : 300 ≤ t2 - t1) :
    (toggleDate (toggleDate ⟨none, l0⟩ d t1).1 d t2).1.personalUnavailability.Perm l0 ∧
    (applyRequest (applyRequest store personId (toggleDate ⟨none, l0⟩ d t1).2)
      personId (toggleDate (toggleDate ⟨none, l0⟩ d t1).1 d t2).2).Perm store := by
  have hdec : decide (t2 - t1 < 300) = false := decide_eq_false (by omega)
  have hfil : (fun r : String × Date => !(r.1 == personId && r.2 == d)) =
      (fun r => r != (personId, d)) := by
    funext r
    rfl
  by_cases hd : d ∈ l0
  · have hc : l0.contains d = true := List.elem_iff.mpr hd
    have h1 : toggleDate ⟨none, l0⟩ d t1 =
        (⟨some (d, t1), l0.filter (fun x => x != d)⟩, some (d, true)) := by
      simp [toggleDate, toggleDateBody, hc]
      exact ⟨fun hnd => absurd hd hnd, hd⟩
    have hc2 : (l0.filter (fun x => x != d)).contains d = false :=
      contains_eq_false_of_not_mem (not_mem_filter_ne_self l0 d)
    have h2 : toggleDate (⟨some (d, t1),
          l0.filter (fun x => x != d)⟩ : ClientState) d t2 =
        (⟨some (d, t2), l0.filter (fun x => x != d) ++ [d]⟩, some (d, false)) := by
      simp [toggleDate, toggleDateBody, hdec, hc2]
    rw [h1]
    dsimp only
    rw [h2]
    dsimp only
    refine ⟨perm_filter_ne_append hl hd, ?_⟩
    have e1 : applyRequest store personId (some (d, true)) =
        store.filter (fun r => !(r.1 == personId && r.2 == d)) := rfl
    have hsc : (store.filter
        (fun r => !(r.1 == personId && r.2 == d))).contains (personId, d) = false := by
      rw [hfil]
      exact contains_eq_false_of_not_mem (not_mem_filter_ne_self store (personId, d))
    have e2 : applyRequest
        (store.filter (fun r => !(r.1 == personId && r.2 == d))) personId
        (some (d, false)) =
        store.filter (fun r => !(r.1 == personId && r.2 == d)) ++ [(personId, d)] := by
      show (if (store.filter (fun r => !(r.1 == personId && r.2 == d))).contains
          (personId, d) then store.filter (fun r => !(r.1 == personId && r.2 == d))
        else store.filter (fun r => !(r.1 == personId && r.2 == d)) ++ [(personId, d)]) = _
      rw [hsc]
      simp only [Bool.false_eq_true, if_false]
    rw [e1, e2, hfil]
    exact perm_filter_ne_append hs (hcons.mp hd)
  · have hc : l0.contains d = false := contains_eq_false_of_not_mem hd
    have h1 : toggleDate ⟨none, l0⟩ d t1 =
        (⟨some (d, t1), l0 ++ [d]⟩, some (d, false)) := by
      simp [toggleDate, toggleDateBody, hc]
      exact ⟨fun hmem => absurd hmem hd, hd⟩
    have hc2 : (l0 ++ [d]).contains d = true := List.elem_iff.mpr (by simp)
    have h2 : toggleDate (⟨some (d, t1), l0 ++ [d]⟩ : ClientState) d t2 =
        (⟨some (d, t2), (l0 ++ [d]).filter (fun x => x != d)⟩, some (d, true)) := by
      simp [toggleDate, toggleDateBody, hdec, hc2]
    have hL2 : (l0 ++ [d]).filter (fun x => x != d) = l0 := by
      rw [List.filter_append, filter_ne_of_not_mem hd]
      simp
    have hms : (personId, d) ∉ store := fun hm => hd (hcons.mpr hm)
    have hstc : store.contains (personId, d) = false := contains_eq_false_of_not_mem hms
    rw [h1]
    dsimp only
    rw [h2]
    dsimp only
    rw [hL2]
    refine ⟨List.Perm.refl l0, ?_⟩
    have e1 : applyRequest store personId (some (d, false)) = store ++ [(personId, d)] := by
      show (if store.contains (personId, d) then store
        else store ++ [(personId, d)]) = _
      rw [hstc]
      simp only [Bool.false_eq_true, if_false]
    have e2 : applyRequest (store ++ [(personId, d)]) personId (some (d, true)) =
        (store ++ [(personId, d)]).filter (fun r => !(r.1 == personId && r.2 == d)) := rfl
    have hS2 : (store ++ [(personId, d)]).filter
        (fun r => !(r.1 == personId && r.2 == d)) = store := by
      rw [hfil, List.filter_append, filter_ne_of_not_mem hms]
      simp
    rw [e1, e2, hS2]

/-- Witness for C3 at a concrete state: one marked date, a consistent
store, and the second toggle 300 ms after the first. -/
theorem c3_toggle_twice_round_trip_witness :
    (toggleDate (toggleDate ⟨none, [⟨2026, 5, 1⟩]⟩ ⟨2026, 5, 1⟩ 0).1
      ⟨2026, 5, 1⟩ 300).1.personalUnavailability.Perm [⟨2026, 5, 1⟩] ∧
    (applyRequest (applyRequest [("1", ⟨2026, 5, 1⟩)] "1"
        (toggleDate ⟨none, [⟨2026, 5, 1⟩]⟩ ⟨2026, 5, 1⟩ 0).2) "1"
      (toggleDate (toggleDate ⟨none, [⟨2026, 5, 1⟩]⟩ ⟨2026, 5, 1⟩ 0).1
        ⟨2026, 5, 1⟩ 300).2).Perm [("1", ⟨2026, 5, 1⟩)] :=
  c3_toggle_twice_round_trip "1" [⟨2026, 5, 1⟩] [("1", ⟨2026, 5, 1⟩)]
    ⟨2026, 5, 1⟩ 0 300 (by decide) (by decide) (by decide) (by decide)

/-- Gregorian leap-year rule (as implemented by the `date-fns` calendar the
client uses for `eachDayOfInterval`). -/
def isLeap (y : Nat) : Bool :=
  (y % 4 == 0 && y % 100 != 0) || y % 400 == 0

/-- Number of days in month `m` of year `y` (months 1–12). -/
def daysInMonth (y m : Nat) : Nat :=
  match m with
  | 1 => 31
  | 2 => if isLeap y then 29 else 28
  | 3 => 31
  | 4 => 30
  | 5 => 31
  | 6 => 30
  | 7 => 31
  | 8 => 31
  | 9 => 30
  | 10 => 31
  | 11 => 30
  | 12 => 31
  | _ => 0

/-- A well-formed calendar date (the only dates the client ever produces,
via `format(day, 'yyyy-MM-dd')` over real calendar days). -/
def validDate (dt : Date) : Prop :=
  1 ≤ dt.year ∧ 1 ≤ dt.month ∧ dt.month ≤ 12 ∧ 1 ≤ dt.day ∧
    dt.day ≤ daysInMonth dt.year dt.month

instance (dt : Date) : Decidable (validDate dt) :=
  inferInstanceAs (Decidable (1 ≤ dt.year ∧ 1 ≤ dt.month ∧ dt.month ≤ 12 ∧
    1 ≤ dt.day ∧ dt.day ≤ daysInMonth dt.year dt.month))

/-- The calendar day after `dt`. -/
def nextDay (dt : Date) : Date :=
  if dt.day < daysInMonth dt.year dt.month then ⟨dt.year, dt.month, dt.day + 1⟩
  else if dt.month < 12 then ⟨dt.year, dt.month + 1, 1⟩
  else ⟨dt.year + 1, 1, 1⟩

/-- Days of year `y` that precede month `m`. -/
def daysBeforeMonth (y m : Nat) : Nat :=
  (match m with
   | 1 => 0
   | 2 => 31
   | 3 => 59
   | 4 => 90
   | 5 => 120
   | 6 => 151
   | 7 => 181
   | 8 => 212
   | 9 => 243
   | 10 => 273
   | 11 => 304
   | 12 => 334
   | _ => 0) +
  (if 3 ≤ m && isLeap y then 1 else 0)

/-- Days in the proleptic Gregorian calendar that precede year `y`
(counting from year 1). -/
def daysToYear (y : Nat) : Nat :=
  365 * (y - 1) + (y - 1) / 4 - (y - 1) / 100 + (y - 1) / 400

/-- Linear day index of a date (days since 0001-01-01). -/
def toIdx (dt : Date) : Nat :=
  daysToYear dt.year + daysBeforeMonth dt.year dt.month + (dt.day - 1)

/-- `n + 1` consecutive calendar days starting at `dt`. -/
def daysFrom (dt : Date) : Nat → List Date
  | 0 => [dt]
  | n + 1 => dt :: daysFrom (nextDay dt) n

/-- Model of the `date-fns` collaborator
`eachDayOfInterval({ start, end }).map(d => format(d, 'yyyy-MM-dd'))` used
by `finalizeDrag`: every calendar day of the inclusive interval (the caller
normalizes the anchors so that `start <= end`). -/
def eachDayOfInterval (lo hi : Date) : List Date :=
  daysFrom lo (toIdx hi - toIdx lo)

/-- The JavaScript string comparison `drag.start < drag.end` on the
zero-padded `yyyy-MM-dd` representation, i.e. lexicographic order on
`(year, month, day)`. -/
def dateLt (a b : Date) : Bool :=
  a.year < b.year ||
    (a.year == b.year &&
      (a.month < b.month || (a.month == b.month && a.day < b.day)))

/-- The corresponding inclusive order on dates. -/
def dateLe (a b : Date) : Prop :=
  dateLt a b = true ∨ a = b

instance (a b : Date) : Decidable (dateLe a b) :=
  inferInstanceAs (Decidable (dateLt a b = true ∨ a = b))

theorem daysInMonth_pos (y m : Nat) (h1 : 1 ≤ m) (h2 : m ≤ 12) :
    1 ≤ daysInMonth y m := by
  interval_cases m <;> cases hL : isLeap y <;> simp [daysInMonth, hL]

theorem daysBeforeMonth_step (y m : Nat) (h1 : 1 ≤ m) (h2 : m ≤ 11) :
    daysBeforeMonth y (m + 1) = daysBeforeMonth y m + daysInMonth y m := by
  interval_cases m <;> cases hL : isLeap y <;>
    simp [daysBeforeMonth, daysInMonth, hL]

theorem daysBeforeMonth_last (y : Nat) :
    daysBeforeMonth y 12 + daysInMonth y 12 =
      365 + (if isLeap y = true then 1 else 0) := by
  cases hL : isLeap y <;> simp [daysBeforeMonth, daysInMonth, hL]

theorem daysToYear_step (y : Nat) (h : 1 ≤ y) :
    daysToYear (y + 1) = daysToYear y + 365 + (if isLeap y = true then 1 else 0) := by
  have hone : (if true = true then (1 : Nat) else 0) = 1 := rfl
  have hzero : (if false = true then (1 : Nat) else 0) = 0 := rfl
  by_cases h4 : y % 4 = 0
  · by_cases h100 : y % 100 = 0
    · by_cases h400 : y % 400 = 0
      · have hL : isLeap y = true := by simp [isLeap]; omega
        rw [hL, hone]
        unfold daysToYear
        simp only [Nat.add_sub_cancel]
        have e1 : y / 4 = (y - 1) / 4 + 1 := by omega
        have e2 : y / 100 = (y - 1) / 100 + 1 := by omega
        have e3 : y / 400 = (y - 1) / 400 + 1 := by omega
        have hb : (y - 1) / 100 ≤ (y - 1) / 4 := by omega
        rw [e1, e2, e3]
        omega
      · have hL : isLeap y = false := by simp [isLeap]; omega
        rw [hL, hzero]
        unfold daysToYear
        simp only [Nat.add_sub_cancel]
        have e1 : y / 4 = (y - 1) / 4 + 1 := by omega
        have e2 : y / 100 = (y - 1) / 100 + 1 := by omega
        have e3 : y / 400 = (y - 1) / 400 := by omega
        have hb : (y - 1) / 100 ≤ (y - 1) / 4 := by omega
        rw [e1, e2, e3]
        omega
    · have h400 : ¬ y % 400 = 0 := by omega
      have hL : isLeap y = true := by simp [isLeap]; omega
      rw [hL, hone]
      unfold daysToYear
      simp only [Nat.add_sub_cancel]
      have e1 : y / 4 = (y - 1) / 4 + 1 := by omega
      have e2 : y / 100 = (y - 1) / 100 := by omega
      have e3 : y / 400 = (y - 1) / 400 := by omega
      have hb : (y - 1) / 100 ≤ (y - 1) / 4 := by omega
      rw [e1, e2, e3]
      omega
  · have h100 : ¬ y % 100 = 0 := by omega
    have h400 : ¬ y % 400 = 0 := by omega
    have hL : isLeap y = false := by simp [isLeap]; omega
    rw [hL, hzero]
    unfold daysToYear
    simp only [Nat.add_sub_cancel]
    have e1 : y / 4 = (y - 1) / 4 := by omega
    have e2 : y / 100 = (y - 1) / 100 := by omega
    have e3 : y / 400 = (y - 1) / 400 := by omega
    have hb : (y - 1) / 100 ≤ (y - 1) / 4 := by omega
    rw [e1, e2, e3]
    omega

theorem nextDay_valid (dt : Date) (hv : validDate dt) : validDate (nextDay dt) := by
  obtain ⟨y, m, d⟩ := dt
  have hv' : 1 ≤ y ∧ 1 ≤ m ∧ m ≤ 12 ∧ 1 ≤ d ∧ d ≤ daysInMonth y m := hv
  obtain ⟨hy, hm1, hm2, hd1, hd2⟩ := hv'
  unfold nextDay
  by_cases hlt : d < daysInMonth y m
  · rw [if_pos hlt]
    show 1 ≤ y ∧ 1 ≤ m ∧ m ≤ 12 ∧ 1 ≤ d + 1 ∧ d + 1 ≤ daysInMonth y m
    exact ⟨hy, hm1, hm2, by omega, by omega⟩
  · by_cases hm12 : m < 12
    · rw [if_neg hlt, if_pos hm12]
      have hpos : 1 ≤ daysInMonth y (m + 1) :=
        daysInMonth_pos y (m + 1) (by omega) (by omega)
      show 1 ≤ y ∧ 1 ≤ m + 1 ∧ m + 1 ≤ 12 ∧ 1 ≤ 1 ∧ 1 ≤ daysInMonth y (m + 1)
      exact ⟨hy, by omega, by omega, le_refl 1, hpos⟩
    · rw [if_neg hlt, if_neg hm12]
      have hpos : 1 ≤ daysInMonth (y + 1) 1 :=
        daysInMonth_pos (y + 1) 1 (by omega) (by omega)
      show 1 ≤ y + 1 ∧ 1 ≤ 1 ∧ 1 ≤ 12 ∧ 1 ≤ 1 ∧ 1 ≤ daysInMonth (y + 1) 1
      exact ⟨by omega, by omega, by omega, le_refl 1, hpos⟩

theorem toIdx_step (dt : Date) (hv : validDate dt) :
    toIdx (nextDay dt) = toIdx dt + 1 := by
  obtain ⟨y, m, d⟩ := dt
  have hv' : 1 ≤ y ∧ 1 ≤ m ∧ m ≤ 12 ∧ 1 ≤ d ∧ d ≤ daysInMonth y m := hv
  obtain ⟨hy, hm1, hm2, hd1, hd2⟩ := hv'
  unfold nextDay
  by_cases hlt : d < daysInMonth y m
  · rw [if_pos hlt]
    show daysToYear y + daysBeforeMonth y m + (d + 1 - 1) =
      daysToYear y + daysBeforeMonth y m + (d - 1) + 1
    omega
  · by_cases hm12 : m < 12
    · rw [if_neg hlt, if_pos hm12]
      have hstep := daysBeforeMonth_step y m hm1 (by omega)
      show daysToYear y + daysBeforeMonth y (m + 1) + (1 - 1) =
        daysToYear y + daysBeforeMonth y m + (d - 1) + 1
      omega
    · rw [if_neg hlt, if_neg hm12]
      have hm' : m = 12 := by omega
      subst hm'
      have hlast := daysBeforeMonth_last y
      have hys := daysToYear_step y hy
      have hb1 : daysBeforeMonth (y + 1) 1 = 0 := rfl
      have hd31 : daysInMonth y 12 = 31 := rfl
      show daysToYear (y + 1) + daysBeforeMonth (y + 1) 1 + (1 - 1) =
        daysToYear y + daysBeforeMonth y 12 + (d - 1) + 1
      omega

theorem daysToYear_mono {y y' : Nat} (h : y ≤ y') : daysToYear y ≤ daysToYear y' := by
  induction y' with
  | zero =>
    have hy0 : y = 0 := by omega
    subst hy0
    exact le_refl _
  | succ n ih =>
    rcases Nat.lt_or_ge y (n + 1) with hlt | hge
    · have hmono := ih (by omega)
      by_cases hn : 1 ≤ n
      · have hstep := daysToYear_step n hn
        omega
      · have hn0 : n = 0 := by omega
        subst hn0
        have e1 : daysToYear (0 + 1) = 0 := rfl
        have e0 : daysToYear 0 = 0 := rfl
        have hy0 : y = 0 := by omega
        subst hy0
        omega
    · have hy : y = n + 1 := by omega
      subst hy
      exact le_refl _

theorem dBM_day_le (y m d : Nat) (h1 : 1 ≤ m) (h2 : m ≤ 12)
    (hd : d ≤ daysInMonth y m) :
    daysBeforeMonth y m + d ≤ 365 + (if isLeap y = true then 1 else 0) := by
  interval_cases m <;> cases hL : isLeap y <;>
    simp [daysBeforeMonth, daysInMonth, hL] at * <;> omega

theorem dBM_add_dim_le (y ma mb : Nat) (h1 : 1 ≤ ma) (h2 : ma < mb)
    (h3 : mb ≤ 12) :
    daysBeforeMonth y ma + daysInMonth y ma ≤ daysBeforeMonth y mb := by
  induction mb with
  | zero => omega
  | succ n ih =>
    by_cases hn : ma < n
    · have hstep := daysBeforeMonth_step y n (by omega) (by omega)
      have hle := ih hn (by omega)
      omega
    · have hma : n = ma := by omega
      subst hma
      have hstep := daysBeforeMonth_step y n h1 (by omega)
      omega

theorem toIdx_lt_of_dateLt {a b : Date} (hva : validDate a) (hvb : validDate b)
    (hlt : dateLt a b = true) : toIdx a < toIdx b := by
  obtain ⟨ya, ma, da⟩ := a
  obtain ⟨yb, mb, db⟩ := b
  have hva' : 1 ≤ ya ∧ 1 ≤ ma ∧ ma ≤ 12 ∧ 1 ≤ da ∧ da ≤ daysInMonth ya ma := hva
  have hvb' : 1 ≤ yb ∧ 1 ≤ mb ∧ mb ≤ 12 ∧ 1 ≤ db ∧ db ≤ daysInMonth yb mb := hvb
  obtain ⟨hya, hma1, hma2, hda1, hda2⟩ := hva'
  obtain ⟨hyb, hmb1, hmb2, hdb1, hdb2⟩ := hvb'
  simp only [dateLt, Bool.or_eq_true, Bool.and_eq_true, beq_iff_eq,
    decide_eq_true_eq] at hlt
  show daysToYear ya + daysBeforeMonth ya ma + (da - 1) <
    daysToYear yb + daysBeforeMonth yb mb + (db - 1)
  rcases hlt with hy | ⟨hyeq, hm | ⟨hmeq, hd⟩⟩
  · have hbound := dBM_day_le ya ma da hma1 hma2 hda2
    have hstep := daysToYear_step ya hya
    have hmono := daysToYear_mono (show ya + 1 ≤ yb by omega)
    omega
  · subst hyeq
    have hbm := dBM_add_dim_le ya ma mb hma1 hm hmb2
    omega
  · subst hyeq
    subst hmeq
    omega

theorem dateLt_asymm {a b : Date} (h : dateLt a b = true) : dateLt b a = false := by
  obtain ⟨ya, ma, da⟩ := a
  obtain ⟨yb, mb, db⟩ := b
  simp only [dateLt, Bool.or_eq_true, Bool.and_eq_true, beq_iff_eq,
    decide_eq_true_eq] at h
  apply Bool.eq_false_iff.mpr
  intro hba
  simp only [dateLt, Bool.or_eq_true, Bool.and_eq_true, beq_iff_eq,
    decide_eq_true_eq] at hba
  omega

theorem dateLt_total {a b : Date} (h : a ≠ b) :
    dateLt a b = true ∨ dateLt b a = true := by
  obtain ⟨ya, ma, da⟩ := a
  obtain ⟨yb, mb, db⟩ := b
  have h' : ¬(ya = yb ∧ ma = mb ∧ da = db) :=
    fun ⟨e1, e2, e3⟩ => h (by rw [e1, e2, e3])
  by_cases hab : dateLt ⟨ya, ma, da⟩ ⟨yb, mb, db⟩ = true
  · exact Or.inl hab
  · right
    simp only [dateLt, Bool.or_eq_true, Bool.and_eq_true, beq_iff_eq,
      decide_eq_true_eq] at hab ⊢
    omega

theorem toIdx_inj {a b : Date} (hva : validDate a) (hvb : validDate b)
    (h : toIdx a = toIdx b) : a = b := by
  by_contra hne
  rcases dateLt_total hne with hl | hl
  · exact absurd h (Nat.ne_of_lt (toIdx_lt_of_dateLt hva hvb hl))
  · exact absurd h.symm (Nat.ne_of_lt (toIdx_lt_of_dateLt hvb hva hl))

theorem dateLe_iff_toIdx_le {a b : Date} (hva : validDate a) (hvb : validDate b) :
    dateLe a b ↔ toIdx a ≤ toIdx b := by
  constructor
  · rintro (hl | rfl)
    · exact Nat.le_of_lt (toIdx_lt_of_dateLt hva hvb hl)
    · exact le_refl _
  · intro hle
    by_cases he : a = b
    · exact Or.inr he
    · rcases dateLt_total he with hl | hl
      · exact Or.inl hl
      · exact absurd hle (by
          have := toIdx_lt_of_dateLt hvb hva hl
          omega)

theorem mem_daysFrom (n : Nat) (lo : Date) (hlo : validDate lo) (x : Date) :
    x ∈ daysFrom lo n ↔
      validDate x ∧ toIdx lo ≤ toIdx x ∧ toIdx x ≤ toIdx lo + n := by
  induction n generalizing lo with
  | zero =>
    simp only [daysFrom, List.mem_singleton]
    constructor
    · rintro rfl
      exact ⟨hlo, le_refl _, by omega⟩
    · rintro ⟨hvx, h1, h2⟩
      exact toIdx_inj hvx hlo (by omega)
  | succ n ih =>
    simp only [daysFrom, List.mem_cons]
    have hnv : validDate (nextDay lo) := nextDay_valid lo hlo
    have hstep : toIdx (nextDay lo) = toIdx lo + 1 := toIdx_step lo hlo
    rw [ih (nextDay lo) hnv]
    constructor
    · rintro (rfl | ⟨hvx, h1, h2⟩)
      · exact ⟨hlo, le_refl _, by omega⟩
      · exact ⟨hvx, by omega, by omega⟩
    · rintro ⟨hvx, h1, h2⟩
      by_cases he : toIdx x = toIdx lo
      · exact Or.inl (toIdx_inj hvx hlo he)
      · exact Or.inr ⟨hvx, by omega, by omega⟩

theorem mem_eachDayOfInterval {lo hi : Date} (hlo : validDate lo)
    (hhi : validDate hi) (hle : toIdx lo ≤ toIdx hi) (x : Date) :
    x ∈ eachDayOfInterval lo hi ↔ validDate x ∧ dateLe lo x ∧ dateLe x hi := by
  unfold eachDayOfInterval
  rw [mem_daysFrom _ lo hlo]
  constructor
  · rintro ⟨hvx, h1, h2⟩
    exact ⟨hvx, (dateLe_iff_toIdx_le hlo hvx).mpr h1,
      (dateLe_iff_toIdx_le hvx hhi).mpr (by omega)⟩
  · rintro ⟨hvx, h1, h2⟩
    have g1 := (dateLe_iff_toIdx_le hlo hvx).mp h1
    have g2 := (dateLe_iff_toIdx_le hvx hhi).mp h2
    exact ⟨hvx, g1, by omega⟩

/-- Embedding of `finalizeDrag` in `App.tsx` (personal mode, logged-in
user, both drag anchors set).  `dateLt` embeds the string comparison
`drag.start < drag.end`; the degenerate case `start === end` falls back to
a single-date toggle when the pointer never moved (`hasMoved`).  Returns
the new client state and the list of persistence request bodies
`{ date, available: false }` fired (in parallel) for the newly added
dates. -/
def finalizeDrag (st : ClientState) (dragStart dragEnd : Date)
    (hasMoved : Bool) (now : Nat) : ClientState × List (Date × Bool) :=
  let start := if dateLt dragStart dragEnd then dragStart else dragEnd
  let e := if dateLt dragStart dragEnd then dragEnd else dragStart
  if start = e then
    if !hasMoved then
      let r := toggleDate st start now
      (r.1, r.2.toList)
    else
      (st, [])
  else
    let range := eachDayOfInterval start e
    let newDates := range.filter (fun dd => !(st.personalUnavailability.contains dd))
    if newDates.length > 0 then
      ({ st with personalUnavailability := st.personalUnavailability ++ newDates },
        newDates.map (fun dd => (dd, false)))
    else
      (st, [])

theorem finalizeDrag_eq_range (st : ClientState) (a b : Date)
    (hasMoved : Bool) (now : Nat) (hlt : dateLt a b = true) (hne : a ≠ b) :
    finalizeDrag st a b hasMoved now =
      if ((eachDayOfInterval a b).filter
          (fun dd => !(st.personalUnavailability.contains dd))).length > 0 then
        (⟨st.lastToggle, st.personalUnavailability ++
            (eachDayOfInterval a b).filter
              (fun dd => !(st.personalUnavailability.contains dd))⟩,
          ((eachDayOfInterval a b).filter
            (fun dd => !(st.personalUnavailability.contains dd))).map
              (fun dd => (dd, false)))
      else (st, []) := by
  unfold finalizeDrag
  rw [hlt]
  exact if_neg hne

theorem finalizeDrag_eq_range_rev (st : ClientState) (a b : Date)
    (hasMoved : Bool) (now : Nat) (hba : dateLt a b = false) (hne : a ≠ b) :
    finalizeDrag st a b hasMoved now =
      if ((eachDayOfInterval b a).filter
          (fun dd => !(st.personalUnavailability.contains dd))).length > 0 then
        (⟨st.lastToggle, st.personalUnavailability ++
            (eachDayOfInterval b a).filter
              (fun dd => !(st.personalUnavailability.contains dd))⟩,
          ((eachDayOfInterval b a).filter
            (fun dd => !(st.personalUnavailability.contains dd))).map
              (fun dd => (dd, false)))
      else (st, []) := by
  unfold finalizeDrag
  rw [hba]
  exact if_neg (fun e => hne e.symm)

/-- C7 counterexample: with the two anchors equal (a drag that never left
its cell) on an already-marked date, `finalizeDrag` takes the single-click
path and unmarks the date, so the one-day inclusive interval is not marked
afterwards. -/
theorem c7_counterexample_degenerate_drag :
    (⟨2026, 6, 5⟩ : Date) ∈ eachDayOfInterval ⟨2026, 6, 5⟩ ⟨2026, 6, 5⟩ ∧
    (⟨2026, 6, 5⟩ : Date) ∉
      (finalizeDrag ⟨none, [⟨2026, 6, 5⟩]⟩ ⟨2026, 6, 5⟩ ⟨2026, 6, 5⟩
        false 0).1.personalUnavailability := by
  constructor
  · decide
  · decide

/-- C7 (amended to distinct anchors): for two distinct anchor dates, a
finalized drag leaves marked exactly the previously marked dates together
with every date of the inclusive calendar interval between the
lexicographic (string-order) min and max of the anchors, and the result is
identical to the drag with the anchors swapped.  (With equal anchors the
source treats the gesture as a single-date toggle, which can unmark — see
the counterexample.) -/
theorem c7_drag_range_normalization (st : ClientState) (a b : Date)
    (hasMoved : Bool) (now : Nat) (hva : validDate a) (hvb : validDate b)
    (hab : a ≠ b) :
    finalizeDrag st a b hasMoved now = finalizeDrag st b a hasMoved now ∧
    (∀ x, x ∈ (finalizeDrag st a b hasMoved now).1.personalUnavailability ↔
      (x ∈ st.personalUnavailability ∨ (validDate x ∧
        dateLe (if dateLt a b then a else b) x ∧
        dateLe x (if dateLt a b then b else a)))) := by
  rcases dateLt_total hab with hlt | hlt
  · have hba : dateLt b a = false := dateLt_asymm hlt
    have hred := finalizeDrag_eq_range st a b hasMoved now hlt hab
    have hred' := finalizeDrag_eq_range_rev st b a hasMoved now hba
      (fun e => hab e.symm)
    have hmin : (if dateLt a b then a else b) = a := by rw [hlt]; rfl
    have hmax : (if dateLt a b then b else a) = b := by rw [hlt]; rfl
    have hidx : toIdx a ≤ toIdx b :=
      Nat.le_of_lt (toIdx_lt_of_dateLt hva hvb hlt)
    refine ⟨by rw [hred, hred'], ?_⟩
    intro x
    rw [hred, hmin, hmax]
    have hmem := mem_eachDayOfInterval hva hvb hidx x
    by_cases hlen : ((eachDayOfInterval a b).filter
        (fun dd => !(st.personalUnavailability.contains dd))).length > 0
    · rw [if_pos hlen]
      show x ∈ st.personalUnavailability ++ _ ↔ _
      rw [List.mem_append, List.mem_filter, ← hmem]
      constructor
      · rintro (h | ⟨h1, _⟩)
        · exact Or.inl h
        · exact Or.inr h1
      · rintro (h | h)
        · exact Or.inl h
        · by_cases hx : x ∈ st.personalUnavailability
          · exact Or.inl hx
          · exact Or.inr ⟨h, by simpa using hx⟩
    · rw [if_neg hlen]
      have hnil : (eachDayOfInterval a b).filter
          (fun dd => !(st.personalUnavailability.contains dd)) = [] := by
        rcases List.eq_nil_or_concat ((eachDayOfInterval a b).filter
          (fun dd => !(st.personalUnavailability.contains dd))) with h | ⟨l, e, h⟩
        · exact h
        · exact absurd (by rw [h]; simp) hlen
      have hsub : ∀ y, y ∈ eachDayOfInterval a b →
          y ∈ st.personalUnavailability := by
        intro y hy
        have := List.filter_eq_nil_iff.mp hnil y hy
        simpa using this
      constructor
      · exact Or.inl
      · rintro (h | h)
        · exact h
        · exact hsub x (hmem.mpr h)
  · have hba : dateLt a b = false := dateLt_asymm hlt
    have hred := finalizeDrag_eq_range_rev st a b hasMoved now hba hab
    have hred' := finalizeDrag_eq_range st b a hasMoved now hlt
      (fun e => hab e.symm)
    have hmin : (if dateLt a b then a else b) = b := by rw [hba]; rfl
    have hmax : (if dateLt a b then b else a) = a := by rw [hba]; rfl
    have hidx : toIdx b ≤ toIdx a :=
      Nat.le_of_lt (toIdx_lt_of_dateLt hvb hva hlt)
    refine ⟨by rw [hred, hred'], ?_⟩
    intro x
    rw [hred, hmin, hmax]
    have hmem := mem_eachDayOfInterval hvb hva hidx x
    by_cases hlen : ((eachDayOfInterval b a).filter
        (fun dd => !(st.personalUnavailability.contains dd))).length > 0
    · rw [if_pos hlen]
      show x ∈ st.personalUnavailability ++ _ ↔ _
      rw [List.mem_append, List.mem_filter, ← hmem]
      constructor
      · rintro (h | ⟨h1, _⟩)
        · exact Or.inl h
        · exact Or.inr h1
      · rintro (h | h)
        · exact Or.inl h
        · by_cases hx : x ∈ st.personalUnavailability
          · exact Or.inl hx
          · exact Or.inr ⟨h, by simpa using hx⟩
    · rw [if_neg hlen]
      have hnil : (eachDayOfInterval b a).filter
          (fun dd => !(st.personalUnavailability.contains dd)) = [] := by
        rcases List.eq_nil_or_concat ((eachDayOfInterval b a).filter
          (fun dd => !(st.personalUnavailability.contains dd))) with h | ⟨l, e, h⟩
        · exact h
        · exact absurd (by rw [h]; simp) hlen
      have hsub : ∀ y, y ∈ eachDayOfInterval b a →
          y ∈ st.personalUnavailability := by
        intro y hy
        have := List.filter_eq_nil_iff.mp hnil y hy
        simpa using this
      constructor
      · exact Or.inl
      · rintro (h | h)
        · exact h
        · exact hsub x (hmem.mpr h)

/-- Witness for C7 at concrete anchors (a backwards drag over June 5–10,
2026, starting from an empty local set). -/
theorem c7_drag_range_normalization_witness :
    finalizeDrag ⟨none, []⟩ ⟨2026, 6, 10⟩ ⟨2026, 6, 5⟩ true 0 =
      finalizeDrag ⟨none, []⟩ ⟨2026, 6, 5⟩ ⟨2026, 6, 10⟩ true 0 ∧
    (∀ x, x ∈ (finalizeDrag ⟨none, []⟩ ⟨2026, 6, 10⟩ ⟨2026, 6, 5⟩ true
        0).1.personalUnavailability ↔
      (x ∈ ([] : List Date) ∨ (validDate x ∧
        dateLe (if dateLt ⟨2026, 6, 10⟩ ⟨2026, 6, 5⟩ then (⟨2026, 6, 10⟩ : Date)
          else ⟨2026, 6, 5⟩) x ∧
        dateLe x (if dateLt ⟨2026, 6, 10⟩ ⟨2026, 6, 5⟩ then (⟨2026, 6, 5⟩ : Date)
          else ⟨2026, 6, 10⟩)))) :=
  c7_drag_range_normalization ⟨none, []⟩ ⟨2026, 6, 10⟩ ⟨2026, 6, 5⟩ true 0
    (by decide) (by decide) (by decide)

/-- C8: a finalized drag over a genuine range (distinct anchors) never
removes an existing mark, and every persistence request it emits is for a
date of the dragged interval that was not already marked (and requests
`available = false`); in particular no request is emitted for an
already-marked date of the range. -/
theorem c8_drag_range_non_clearing (st : ClientState) (a b : Date)
    (hasMoved : Bool) (now : Nat) (hab : a ≠ b) :
    (∀ x ∈ st.personalUnavailability,
      x ∈ (finalizeDrag st a b hasMoved now).1.personalUnavailability) ∧
    (∀ r ∈ (finalizeDrag st a b hasMoved now).2,
      r.1 ∉ st.personalUnavailability ∧ r.2 = false ∧
      r.1 ∈ eachDayOfInterval (if dateLt a b then a else b)
        (if dateLt a b then b else a)) := by
  rcases dateLt_total hab with hlt | hlt
  · have hred := finalizeDrag_eq_range st a b hasMoved now hlt hab
    have hmin : (if dateLt a b then a else b) = a := by rw [hlt]; rfl
    have hmax : (if dateLt a b then b else a) = b := by rw [hlt]; rfl
    rw [hred, hmin, hmax]
    by_cases hlen : ((eachDayOfInterval a b).filter
        (fun dd => !(st.personalUnavailability.contains dd))).length > 0
    · rw [if_pos hlen]
      constructor
      · intro x hx
        show x ∈ st.personalUnavailability ++ _
        exact List.mem_append.mpr (Or.inl hx)
      · intro r hr
        rcases List.mem_map.mp hr with ⟨dd, hdd, rfl⟩
        rcases List.mem_filter.mp hdd with ⟨hin, hpass⟩
        refine ⟨?_, rfl, hin⟩
        intro hmem
        have hc : st.personalUnavailability.contains dd = true :=
          List.elem_iff.mpr hmem
        rw [hc] at hpass
        simp at hpass
    · rw [if_neg hlen]
      exact ⟨fun x hx => hx, fun r hr => by simp at hr⟩
  · have hba : dateLt a b = false := dateLt_asymm hlt
    have hred := finalizeDrag_eq_range_rev st a b hasMoved now hba hab
    have hmin : (if dateLt a b then a else b) = b := by rw [hba]; rfl
    have hmax : (if dateLt a b then b else a) = a := by rw [hba]; rfl
    rw [hred, hmin, hmax]
    by_cases hlen : ((eachDayOfInterval b a).filter
        (fun dd => !(st.personalUnavailability.contains dd))).length > 0
    · rw [if_pos hlen]
      constructor
      · intro x hx
        show x ∈ st.personalUnavailability ++ _
        exact List.mem_append.mpr (Or.inl hx)
      · intro r hr
        rcases List.mem_map.mp hr with ⟨dd, hdd, rfl⟩
        rcases List.mem_filter.mp hdd with ⟨hin, hpass⟩
        refine ⟨?_, rfl, hin⟩
        intro hmem
        have hc : st.personalUnavailability.contains dd = true :=
          List.elem_iff.mpr hmem
        rw [hc] at hpass
        simp at hpass
    · rw [if_neg hlen]
      exact ⟨fun x hx => hx, fun r hr => by simp at hr⟩

/-- Witness for C8 at a concrete drag over June 5–10, 2026 with June 7
already marked. -/
theorem c8_drag_range_non_clearing_witness :
    (∀ x ∈ [(⟨2026, 6, 7⟩ : Date)],
      x ∈ (finalizeDrag ⟨none, [⟨2026, 6, 7⟩]⟩ ⟨2026, 6, 5⟩ ⟨2026, 6, 10⟩
        true 0).1.personalUnavailability) ∧
    (∀ r ∈ (finalizeDrag ⟨none, [⟨2026, 6, 7⟩]⟩ ⟨2026, 6, 5⟩ ⟨2026, 6, 10⟩
        true 0).2,
      r.1 ∉ [(⟨2026, 6, 7⟩ : Date)] ∧ r.2 = false ∧
      r.1 ∈ eachDayOfInterval
        (if dateLt ⟨2026, 6, 5⟩ ⟨2026, 6, 10⟩ then (⟨2026, 6, 5⟩ : Date)
          else ⟨2026, 6, 10⟩)
        (if dateLt ⟨2026, 6, 5⟩ ⟨2026, 6, 10⟩ then (⟨2026, 6, 10⟩ : Date)
          else ⟨2026, 6, 5⟩)) :=
  c8_drag_range_non_clearing ⟨none, [⟨2026, 6, 7⟩]⟩ ⟨2026, 6, 5⟩
    ⟨2026, 6, 10⟩ true 0 (by decide)

/-- A row of the `people` table created by `initDb` in `src/db.ts`
(`id TEXT PRIMARY KEY, name TEXT NOT NULL, color TEXT NOT NULL,
passcode TEXT`); the passcode is nullable (legacy rows). -/
structure PersonRow where
  id : String
  name : String
  color : String
  passcode : Option String
deriving DecidableEq, Repr

/-- Response of `POST /api/login` (`src/server.ts`): the 400
missing-field response, the 401 `Incorrect PIN` response, or the 200 JSON
body — the identity with the passcode stripped
(`const (passcode, ...userWithoutPasscode) = user`). -/
inductive LoginResult where
  | missingField
  | incorrectPin
  | ok (id name color : String)
deriving DecidableEq, Repr

/-- Embedding of `POST /api/login` (`src/server.ts`): empty name or
passcode answer 400; otherwise the name is looked up case-insensitively
(`SELECT * FROM people WHERE LOWER(name) = LOWER($1)`, `users[0]` wins);
on a match the stored passcode is compared (`user.passcode === passcode`),
returning the row without its passcode on success and 401 on mismatch;
with no match a fresh row (`id = Date.now().toString()`, a color from the
palette via `Math.random()`) with the given name and passcode is inserted
and `{ id, name, color }` is returned.  The fresh `id` and chosen `color`
enter as parameters. -/
def login (store : List PersonRow) (name passcode : String)
    (newId newColor : String) : LoginResult × List PersonRow :=
  if name = "" ∨ passcode = "" then (.missingField, store)
  else
    match store.filter (fun p => p.name.toLower == name.toLower) with
    | [] => (.ok newId name newColor,
        store ++ [⟨newId, name, newColor, some passcode⟩])
    | user :: _ =>
      if user.passcode == some passcode then
        (.ok user.id user.name user.color, store)
      else
        (.incorrectPin, store)

/-- Reduction of `login` when the case-insensitive lookup finds a row:
the handler takes the `users.length > 0` branch with `users[0]`. -/
theorem login_matched (store : List PersonRow) (name passcode newId newColor : String)
    {user : PersonRow} {rest : List PersonRow}
    (hcond : ¬(name = "" ∨ passcode = ""))
    (hfil : store.filter (fun p => p.name.toLower == name.toLower) = user :: rest) :
    login store name passcode newId newColor =
      if user.passcode == some passcode then
        (.ok user.id user.name user.color, store)
      else (.incorrectPin, store) := by
  unfold login
  rw [if_neg hcond, hfil]

/-- C4: a first login with an unseen name (case-insensitively) and a
non-empty secret creates exactly one new identity with that name and
secret and returns it; a second login with the same name and secret
returns that identity without creating a duplicate; a login with the same
name and a different (non-empty) secret fails with the invalid-credential
error and changes nothing. -/
theorem c4_login_create_then_match (store : List PersonRow)
    (name passcode other newId newColor newId2 newColor2 newId3 newColor3 : String)
    (hname : name ≠ "") (hpass : passcode ≠ "") (hother : other ≠ "")
    (hnomatch : ∀ p ∈ store, p.name.toLower ≠ name.toLower)
    (hdiff : other ≠ passcode) :
    login store name passcode newId newColor =
      (.ok newId name newColor,
        store ++ [⟨newId, name, newColor, some passcode⟩]) ∧
    login (store ++ [⟨newId, name, newColor, some passcode⟩]) name passcode
        newId2 newColor2 =
      (.ok newId name newColor,
        store ++ [⟨newId, name, newColor, some passcode⟩]) ∧
    login (store ++ [⟨newId, name, newColor, some passcode⟩]) name other
        newId3 newColor3 =
      (.incorrectPin, store ++ [⟨newId, name, newColor, some passcode⟩]) := by
  have hcond : ¬(name = "" ∨ passcode = "") := fun h => h.elim hname hpass
  have hcond3 : ¬(name = "" ∨ other = "") := fun h => h.elim hname hother
  have hfil : store.filter (fun p => p.name.toLower == name.toLower) = [] :=
    List.filter_eq_nil_iff.mpr (fun p hp => by simp [hnomatch p hp])
  have hfil2 : (store ++ [(⟨newId, name, newColor, some passcode⟩ : PersonRow)]).filter
      (fun p => p.name.toLower == name.toLower) =
      [⟨newId, name, newColor, some passcode⟩] := by
    rw [List.filter_append, hfil]
    simp
  refine ⟨?_, ?_, ?_⟩
  · unfold login
    rw [if_neg hcond, hfil]
  · rw [login_matched _ name passcode newId2 newColor2 hcond hfil2]
    dsimp only
    have hpc : ((some passcode : Option String) == some passcode) = true := by simp
    rw [hpc]
    rfl
  · rw [login_matched _ name other newId3 newColor3 hcond3 hfil2]
    dsimp only
    have hpc : ((some passcode : Option String) == some other) = false := by
      simp
      exact fun e => hdiff e.symm
    rw [hpc]
    simp only [Bool.false_eq_true, if_false]

/-- Witness for C4 starting from an empty store: first login creates the
row, the second matches it, a wrong PIN is rejected. -/
theorem c4_login_create_then_match_witness :
    login [] "Kevin" "4321" "n" "#fff" =
      (.ok "n" "Kevin" "#fff", [⟨"n", "Kevin", "#fff", some "4321"⟩]) ∧
    login [⟨"n", "Kevin", "#fff", some "4321"⟩] "Kevin" "4321" "n2" "#eee" =
      (.ok "n" "Kevin" "#fff", [⟨"n", "Kevin", "#fff", some "4321"⟩]) ∧
    login [⟨"n", "Kevin", "#fff", some "4321"⟩] "Kevin" "9999" "n3" "#ddd" =
      (.incorrectPin, [⟨"n", "Kevin", "#fff", some "4321"⟩]) :=
  c4_login_create_then_match [] "Kevin" "4321" "9999" "n" "#fff" "n2" "#eee"
    "n3" "#ddd" (by decide) (by decide) (by decide)
    (fun p hp => absurd hp (List.not_mem_nil p)) (by decide)

/-- Embedding of `GET /api/people` in `src/api/index.ts`:
`SELECT * FROM people` — the response is the full rows, the `passcode`
column included. -/
def apiGetPeople (store : List PersonRow) : List PersonRow :=
  store

/-- Embedding of `GET /api/people` in `src/server.ts`:
`SELECT id, name, color FROM people` — the passcode column never leaves
the store. -/
def serverGetPeople (store : List PersonRow) : List Person :=
  store.map (fun p => ⟨p.id, p.name, p.color⟩)

/-- C5 at the failing input: the read-all-identities route of
`src/api/index.ts` returns a row whose `passcode` field carries the stored
secret, and its output distinguishes two stores that differ only in a
secret — whereas the `src/server.ts` read-all strips the column (its
output is the same for both stores) and a successful login returns the
identity without its passcode. -/
theorem c5_api_people_leaks_passcode :
    (∃ p ∈ apiGetPeople [⟨"1", "Jan", "#3b82f6", some "1234"⟩],
      p.passcode = some "1234") ∧
    apiGetPeople [⟨"1", "Jan", "#3b82f6", some "1234"⟩] ≠
      apiGetPeople [⟨"1", "Jan", "#3b82f6", some "9999"⟩] ∧
    serverGetPeople [⟨"1", "Jan", "#3b82f6", some "1234"⟩] =
      serverGetPeople [⟨"1", "Jan", "#3b82f6", some "9999"⟩] ∧
    (login [] "Jan" "1234" "1" "#3b82f6").1 =
      LoginResult.ok "1" "Jan" "#3b82f6" := by
  refine ⟨⟨⟨"1", "Jan", "#3b82f6", some "1234"⟩, ?_, rfl⟩, ?_, rfl, rfl⟩
  · exact List.mem_singleton.mpr rfl
  · decide

/-- The two stores touched by `DELETE /api/people/:id`. -/
structure Stores where
  availability : List (String × Date)
  people : List PersonRow
deriving DecidableEq, Repr

/-- Response of `DELETE /api/people/:id` (`src/server.ts`): the JSON
`{ success: true }` or the 500 response produced by the catch block. -/
inductive DeleteResult where
  | ok
  | err
deriving DecidableEq, Repr

/-- Embedding of `DELETE /api/people/:id` (`src/server.ts`).  The two
`await sql(...)` statements run in order with no surrounding transaction:
first `DELETE FROM availability WHERE person_id = $1`, then
`DELETE FROM people WHERE id = $1`.  `availOk` / `peopleOk` say whether
each statement succeeds; a failing statement throws (its own table
unchanged, each single statement being atomic) and control jumps to the
catch block.  Returns the response, the resulting stores, and whether the
identity-deletion statement was attempted. -/
def deletePerson (st : Stores) (id : String) (availOk peopleOk : Bool) :
    DeleteResult × Stores × Bool :=
  if availOk = false then
    (.err, st, false)
  else
    let st1 : Stores := ⟨st.availability.filter (fun r => !(r.1 == id)), st.people⟩
    if peopleOk = false then
      (.err, st1, true)
    else
      (.ok, ⟨st1.availability, st1.people.filter (fun p => !(p.id == id))⟩, true)

/-- C6 counterexample: when the marks deletion succeeds but the identity
deletion fails, the request reports failure yet the availability store has
already changed — the failure does not leave both stores unchanged. -/
theorem c6_counterexample_partial_failure :
    (deletePerson ⟨[("X", ⟨2026, 5, 1⟩), ("X", ⟨2026, 5, 2⟩)],
        [⟨"X", "Jan", "#3b82f6", some "1234"⟩]⟩ "X" true false).1 =
      DeleteResult.err ∧
    (deletePerson ⟨[("X", ⟨2026, 5, 1⟩), ("X", ⟨2026, 5, 2⟩)],
        [⟨"X", "Jan", "#3b82f6", some "1234"⟩]⟩ "X" true
          false).2.1.availability ≠
      [("X", ⟨2026, 5, 1⟩), ("X", ⟨2026, 5, 2⟩)] := by
  constructor
  · decide
  · decide

/-- C6 (amended): a successful deletion removes every availability mark of
the identity and its people row (leaving all other rows); a failure of the
marks-deletion statement leaves both stores unchanged and the identity
deletion is never attempted; a failure of the identity-deletion statement
leaves the people store unchanged, though the marks are already gone. -/
theorem c6_delete_cascade (st : Stores) (id : String) (availOk peopleOk : Bool) :
    (availOk = true → peopleOk = true →
      (deletePerson st id availOk peopleOk).1 = DeleteResult.ok ∧
      (∀ r ∈ (deletePerson st id availOk peopleOk).2.1.availability,
        r.1 ≠ id) ∧
      (∀ p ∈ (deletePerson st id availOk peopleOk).2.1.people, p.id ≠ id) ∧
      (∀ r ∈ st.availability, r.1 ≠ id →
        r ∈ (deletePerson st id availOk peopleOk).2.1.availability) ∧
      (∀ p ∈ st.people, p.id ≠ id →
        p ∈ (deletePerson st id availOk peopleOk).2.1.people)) ∧
    (availOk = false →
      (deletePerson st id availOk peopleOk).1 = DeleteResult.err ∧
      (deletePerson st id availOk peopleOk).2.1 = st ∧
      (deletePerson st id availOk peopleOk).2.2 = false) ∧
    (availOk = true → peopleOk = false →
      (deletePerson st id availOk peopleOk).1 = DeleteResult.err ∧
      (deletePerson st id availOk peopleOk).2.1.people = st.people) := by
  refine ⟨fun ha hp => ?_, fun ha => ?_, fun ha hp => ?_⟩
  · subst ha
    subst hp
    refine ⟨rfl, ?_, ?_, ?_, ?_⟩
    · intro r hr
      have := List.of_mem_filter hr
      simp at this
      exact this
    · intro p hp
      have := List.of_mem_filter hp
      simp at this
      exact this
    · intro r hr hne
      exact List.mem_filter.mpr ⟨hr, by simp [hne]⟩
    · intro p hp hne
      exact List.mem_filter.mpr ⟨hp, by simp [hne]⟩
  · subst ha
    exact ⟨rfl, rfl, rfl⟩
  · subst ha
    subst hp
    exact ⟨rfl, rfl⟩

/-- Witness for C6 at concrete stores with each failure mode. -/
theorem c6_delete_cascade_witness :
    (deletePerson ⟨[("X", ⟨2026, 5, 1⟩)], [⟨"X", "Jan", "#3b82f6",
        some "1234"⟩]⟩ "X" true true).1 = DeleteResult.ok ∧
    (deletePerson ⟨[("X", ⟨2026, 5, 1⟩)], [⟨"X", "Jan", "#3b82f6",
        some "1234"⟩]⟩ "X" false true).2.1 =
      ⟨[("X", ⟨2026, 5, 1⟩)], [⟨"X", "Jan", "#3b82f6", some "1234"⟩]⟩ ∧
    (deletePerson ⟨[("X", ⟨2026, 5, 1⟩)], [⟨"X", "Jan", "#3b82f6",
        some "1234"⟩]⟩ "X" true false).2.1.people =
      [⟨"X", "Jan", "#3b82f6", some "1234"⟩] :=
  ⟨((c6_delete_cascade ⟨[("X", ⟨2026, 5, 1⟩)], [⟨"X", "Jan", "#3b82f6",
      some "1234"⟩]⟩ "X" true true).1 rfl rfl).1,
   ((c6_delete_cascade ⟨[("X", ⟨2026, 5, 1⟩)], [⟨"X", "Jan", "#3b82f6",
      some "1234"⟩]⟩ "X" false true).2.1 rfl).2.1,
   ((c6_delete_cascade ⟨[("X", ⟨2026, 5, 1⟩)], [⟨"X", "Jan", "#3b82f6",
      some "1234"⟩]⟩ "X" true false).2.2 rfl rfl).2⟩
